import Mathlib

/-!
Verification of the translation resolution engine of `translatable.rs`.

The development shallowly embeds the two resolution pipelines of the
repository:

* the raw-TOML runtime pipeline of `src/src/translations.rs`
  (`translations_valid`, `load_translations`, `load_translation_static`),
* the `TranslationNode`-based pipeline of `translatable_proc`
  (`data/translations.rs` and `macro_generation/translation.rs`) together
  with `TranslationNodeCollection` of `translatable_shared`,

and the template substitution chain generated by `kwarg_static_replaces`.

TOML values are modelled as a mutual inductive (`Value`/`Table`); a `Table`
is an association list of key/value entries (parsed TOML tables have
distinct keys; lookup is first-match).  Machine integers of the source
(the `i32` brace counter) are modelled as `Int`; the counter overflows only
on strings with more than 2^31 braces, which the development never builds.
File system walking, TOML text parsing and configuration parsing are
outside the embedded core: the embedding consumes the ordered list of
(file path, parsed table) pairs that the source derives from them.
-/

mutual
/-- One parsed TOML value, as used by the translation loader.  The source
only distinguishes string values, table values and "everything else"
(`toml::Value::String`, `toml::Value::Table`, and the `_` match arm of
`translations_valid`); `other` stands for the remaining TOML value kinds,
which validation rejects. -/
inductive Value where
  | str (s : String)
  | table (t : Table)
  | other
deriving DecidableEq, Repr
/-- A parsed TOML table, as an association list of its entries. -/
inductive Table where
  | nil
  | cons (key : String) (val : Value) (rest : Table)
deriving DecidableEq, Repr
end

/-- Key lookup, `toml::Table::get`.  Parsed tables have pairwise distinct
keys, so first-match lookup over the entry list models map lookup. -/
def Table.get : Table → String → Option Value
  | .nil, _ => none
  | .cons k v rest, key => if k = key then some v else rest.get key

/-- The table view of a value, `toml::Value::as_table`. -/
def Value.as_table : Value → Option Table
  | .table t => some t
  | _ => none

/-- Modelled from the spec: the Language Registry (`Iso639a` lives outside
`src/`).  Per section 4.1 the registry is a fixed finite set of codes with
membership testing; the development is parameterized by the code list
`reg` and `is_valid` is membership. -/
def isValidLang (reg : List String) (code : String) : Bool := reg.contains code

/-- The brace balance check of `translations_valid`: fold over the
characters counting `{` as +1 and `}` as -1. -/
def braceBalance (s : String) : Int :=
  s.data.foldl (fun acc c => if c = '\x7b' then acc + 1 else if c = '\x7d' then acc - 1 else acc) 0

/-- Validation, `translations_valid` of `src/src/translations.rs`, with the two
mutable flags `contains_translation` (`ct`) and `contains_table` (`cb`)
passed explicitly.  A table entry is rejected if a translation was already
seen or its subtable is invalid; a string entry is rejected if a table was
already seen, its key is not a valid language code, or its braces are
unbalanced; any other value kind is rejected. -/
def translationsValidAux (reg : List String) : Table → Bool → Bool → Bool
  | .nil, _, _ => true
  | .cons k v rest, ct, cb =>
    match v with
    | .table sub => !ct && translationsValidAux reg sub false false && translationsValidAux reg rest ct true
    | .str s => !cb && (isValidLang reg k && ((braceBalance s == 0) && translationsValidAux reg rest true cb))
    | .other => false

/-- The validation entry point, `translations_valid` with both flags false. -/
def translations_valid (reg : List String) (t : Table) : Bool :=
  translationsValidAux reg t false false

/-- Hexadecimal digit, for the `\uXXXX` escapes of TOML serialization. -/
def hexDigit (n : Nat) : Char :=
  if n < 10 then Char.ofNat (48 + n) else Char.ofNat (55 + n)

/-- Escaping of one character in a TOML basic string, as produced by the
`toml` crate's serializer (used by `Display for toml::Value`). -/
def tomlEscapeChar (c : Char) : List Char :=
  if c = '"' then ['\\', '"']
  else if c = '\\' then ['\\', '\\']
  else if c = '\x08' then ['\\', 'b']
  else if c = '\t' then ['\\', 't']
  else if c = '\n' then ['\\', 'n']
  else if c = '\x0c' then ['\\', 'f']
  else if c = '\r' then ['\\', 'r']
  else if c.toNat < 32 || c.toNat == 127 then
    ['\\', 'u', hexDigit (c.toNat / 4096 % 16), hexDigit (c.toNat / 256 % 16),
     hexDigit (c.toNat / 16 % 16), hexDigit (c.toNat % 16)]
  else [c]

/-- TOML serialization of a string value: surrounding quotes plus escapes.
This is what `toml::Value::String(s).to_string()` produces. -/
def tomlQuote (s : String) : String :=
  ⟨'"' :: s.data.foldr (fun c acc => tomlEscapeChar c ++ acc) ['"']⟩

mutual
/-- Serialization, `Display for toml::Value` (hence `Value::to_string`): it serializes
the value as TOML: strings are quoted with escapes, tables render as
inline tables.  Keys are rendered bare (every key this development
evaluates is a bare TOML key); value kinds other than strings and tables
are not modelled (validated tables never contain them). -/
def Value.tomlDisplay : Value → String
  | .str s => tomlQuote s
  | .table t => t.tomlDisplayTable
  | .other => ""
/-- Inline-table rendering of a whole table. -/
def Table.tomlDisplayTable : Table → String
  | .nil => "\x7b\x7d"
  | .cons k v rest => "\x7b " ++ k ++ " = " ++ v.tomlDisplay ++ rest.tomlDisplayEntries ++ " \x7d"
/-- Inline-table rendering of the entries after the first. -/
def Table.tomlDisplayEntries : Table → String
  | .nil => ""
  | .cons k v rest => ", " ++ k ++ " = " ++ v.tomlDisplay ++ rest.tomlDisplayEntries
end

/-- Splitting a character list at every occurrence of `c`, matching Rust's
`str::split(char)`: the empty string yields one empty piece, and a
trailing separator yields a trailing empty piece. -/
def splitOnChar (c : Char) : List Char → List (List Char)
  | [] => [[]]
  | x :: xs =>
    if x = c then [] :: splitOnChar c xs
    else
      match splitOnChar c xs with
      | s :: rest => (x :: s) :: rest
      | [] => [[x]]

/-- Path splitting, `path.split('.')` of the resolvers. -/
def splitPath (path : String) : List String :=
  (splitOnChar '.' path.data).map (fun l => ⟨l⟩)

/-- The path walk of `load_translation_static`:
`path.split('.').try_fold(translation, |acc, key| acc.get(key)?.as_table())`.
Each segment is looked up in the current table and must itself be a
table. -/
def walkTables : Table → List String → Option Table
  | t, [] => some t
  | t, s :: rest =>
    match t.get s with
    | some v =>
      match v.as_table with
      | some sub => walkTables sub rest
      | none => none
    | none => none

/-- One file's match in the resolver loop: walk the path segments, then
look the language up in the final table
(`.and_then(|table| table.get(lang))`). -/
def lookupTrans (t : Table) (lang : String) (segs : List String) : Option Value :=
  (walkTables t segs).bind (fun T => T.get lang)

/-- The overlap policy, `TranslationOverlap` of `config.rs`. -/
inductive TranslationOverlap where
  | overwrite
  | ignore
deriving DecidableEq, Repr

/-- The resolver loop of `load_translation_static`: iterate the loaded
tables in order; on a match store `Some(value.to_string())` into
`chosen_translation` and, under the `Ignore` overlap policy, break. -/
def rawChoose (ov : TranslationOverlap) : List Table → String → List String → Option String → Option String
  | [], _, _, chosen => chosen
  | t :: rest, lang, segs, chosen =>
    match lookupTrans t lang segs with
    | some v =>
      if ov = .ignore then some v.tomlDisplay
      else rawChoose ov rest lang segs (some v.tomlDisplay)
    | none => rawChoose ov rest lang segs chosen

/-- The error cases of the embedded pipelines.  `invalidLanguage` and
`invalidTomlFormat` come from `TranslationError` of
`src/src/translations.rs` (the suggestion list attached to
`InvalidLanguage`, built from the `Iso639a` enum that lives outside
`src/`, is not inspected by any claim and is elided); `pathNotFound` and
`languageNotAvailable` model the corresponding `CompileTimeError`
variants used by `translatable_proc`.  I/O, parse and config errors sit
outside the embedded core. -/
inductive TranslationError where
  | invalidLanguage (lang : String)
  | invalidTomlFormat (file : String)
  | pathNotFound (path : String)
  | languageNotAvailable (lang : String) (path : String)
deriving DecidableEq, Repr

/-- Loading, `load_translations` of `src/src/translations.rs`, from the ordered
(seek-order) list of parsed files: each table must pass
`translations_valid`, otherwise loading stops with `InvalidTomlFormat`
naming the offending file. -/
def load_translations (reg : List String) : List (String × Table) → Except TranslationError (List Table)
  | [] => .ok []
  | (p, t) :: rest =>
    if translations_valid reg t then
      match load_translations reg rest with
      | .ok ts => .ok (t :: ts)
      | .error e => .error e
    else .error (.invalidTomlFormat p)

/-- Resolution, `load_translation_static` of `src/src/translations.rs`: load and
validate all files, reject a registry-invalid language, then run the
resolver loop over the loaded tables. -/
def load_translation_static (reg : List String) (ov : TranslationOverlap)
    (files : List (String × Table)) (lang path : String) :
    Except TranslationError (Option String) :=
  match load_translations reg files with
  | .error e => .error e
  | .ok tables =>
    if isValidLang reg lang then
      .ok (rawChoose ov tables lang (splitPath path) none)
    else
      .error (.invalidLanguage lang)

/-- Does `pat` occur at the head of `l`?  (Rust pattern matching at one
position, written out to keep every definition kernel-reducible.) -/
def leadsIn : List Char → List Char → Bool
  | [], _ => true
  | _ :: _, [] => false
  | p :: ps, c :: cs => p = c && leadsIn ps cs

/-- Scanner of Rust's `str::replace`: replace each leftmost,
non-overlapping occurrence of `pat` by `repl`.  The fuel argument (always
instantiated with the string length, which bounds the number of steps)
keeps the recursion structural so that it reduces in the kernel. -/
def replaceAux (pat repl : List Char) : Nat → List Char → List Char
  | 0, s => s
  | _ + 1, [] => []
  | fuel + 1, c :: rest =>
    if leadsIn pat (c :: rest) then
      repl ++ replaceAux pat repl fuel (List.drop (pat.length - 1) rest)
    else c :: replaceAux pat repl fuel rest

/-- Rust's `str::replace(pat, repl)`.  The source only ever calls it with
patterns containing braces, so the empty-pattern edge case (where Rust
would interleave `repl` at every boundary) is mapped to the identity and
never exercised. -/
def rustReplace (s pat repl : String) : String :=
  if pat.data.isEmpty then s
  else ⟨replaceAux pat.data repl.data s.data.length s.data⟩

/-- The three-phase replacement chain generated by
`kwarg_static_replaces` for one binding `key := value`:
`.replace("{{key}}", "\x01{key}\x01").replace("{key}", value)
.replace("\x01{key}\x01", "{key}")`. -/
def kwarg_static_replaces (key value s : String) : String :=
  rustReplace
    (rustReplace
      (rustReplace s ("\x7b\x7b" ++ key ++ "\x7d\x7d") ("\x01\x7b" ++ key ++ "\x7d\x01"))
      ("\x7b" ++ key ++ "\x7d") value)
    ("\x01\x7b" ++ key ++ "\x7d\x01") ("\x7b" ++ key ++ "\x7d")

/-- The full substitution applied to a template: the per-binding chains of
`kwarg_dynamic_replaces`, applied in the iteration order of the binding
list (the source iterates a `HashMap`, whose order is unspecified). -/
def substituteAll (bindings : List (String × String)) (s : String) : String :=
  bindings.foldl (fun acc kv => kwarg_static_replaces kv.1 kv.2 acc) s

mutual
/-- Modelled from the spec: `TranslationNode` of `translatable_shared`
(its `node.rs` lives outside `src/`).  Section 4.3: a node is either a
namespace mapping segment names to child nodes, or a leaf Translation
Object mapping language codes to template strings. -/
inductive TranslationNode where
  | nspace (children : NodeEntries)
  | leaf (obj : List (String × String))
deriving DecidableEq, Repr
/-- Modelled from the spec: the children of a namespace node, as an
association list from segment name to child node. -/
inductive NodeEntries where
  | nil
  | cons (key : String) (node : TranslationNode) (rest : NodeEntries)
deriving DecidableEq, Repr
end

mutual
/-- Modelled from the spec: `TranslationNode::get_path` / `find_path`
(section 4.3): walk segments one at a time into namespace children;
none if a segment is absent, if the walk ends on a namespace before the
segments are exhausted, or if segments remain after reaching a leaf. -/
def TranslationNode.getPath : TranslationNode → List String → Option (List (String × String))
  | .leaf obj, [] => some obj
  | .leaf _, _ :: _ => none
  | .nspace _, [] => none
  | .nspace es, s :: rest => NodeEntries.seek es s rest
/-- Modelled from the spec: locate the child node named `s` among the
namespace children and continue the walk there. -/
def NodeEntries.seek : NodeEntries → String → List String → Option (List (String × String))
  | .nil, _, _ => none
  | .cons k n es, s, rest => if k = s then n.getPath rest else NodeEntries.seek es s rest
end

/-- Lookup in a leaf Translation Object (language to template string). -/
def objGet : List (String × String) → String → Option String
  | [], _ => none
  | (k, v) :: rest, lang => if k = lang then some v else objGet rest lang

/-- Modelled from the spec: construction of a leaf Translation Object
from an all-string table (section 4.2): every key must be a valid
language code and every value must have balanced braces. -/
def leafOfTable (reg : List String) : Table → Option (List (String × String))
  | .nil => some []
  | .cons k v rest =>
    match v with
    | .str s =>
      if isValidLang reg k && (braceBalance s == 0) then
        (leafOfTable reg rest).map (fun obj => (k, s) :: obj)
      else none
    | _ => none

mutual
/-- Modelled from the spec: `TranslationNode::try_from` (section 4.3,
`node.rs` lives outside `src/`): children must be uniformly tables
(giving a namespace) or uniformly strings (giving a leaf, validated per
section 4.2); an empty table is an empty namespace; mixed or other
children fail. -/
def nodeOfTable (reg : List String) : Table → Option TranslationNode
  | .nil => some (.nspace .nil)
  | .cons k (.str s) rest => (leafOfTable reg (.cons k (.str s) rest)).map .leaf
  | .cons k (.table sub) rest =>
    match nodeOfTable reg sub, nodeEntriesOfTable reg rest with
    | some n, some es => some (.nspace (.cons k n es))
    | _, _ => none
  | .cons _ .other _ => none
/-- Modelled from the spec: namespace children built from the remaining
entries of an all-table table. -/
def nodeEntriesOfTable (reg : List String) : Table → Option NodeEntries
  | .nil => some .nil
  | .cons k (.table sub) rest =>
    match nodeOfTable reg sub, nodeEntriesOfTable reg rest with
    | some n, some es => some (.cons k n es)
    | _, _ => none
  | .cons _ _ _ => none
end

/-- Collection search, `TranslationNodeCollection::find_path` of
`translatable_shared/src/translations/collection.rs`:
`self.0.values().find_map(|node| node.find_path(path))`.  The collection
is a `HashMap<String, TranslationNode>`; the entry list models one
iteration order of that map.  `std::collections::HashMap` fixes no
relation between iteration order and insertion order, so any permutation
of the entries denotes the same map. -/
def collectionFindPath (entries : List (String × TranslationNode)) (segs : List String) :
    Option (List (String × String)) :=
  entries.findSome? (fun e => e.2.getPath segs)

/-- The per-file node construction loop of `load_translations` in
`translatable_proc/src/data/translations.rs`: build a `TranslationNode`
per file in order, attaching the file path to a construction failure and
stopping at the first failure (`collect::<Result<Vec<_>, _>>`). -/
def build_assocs (reg : List String) : List (String × Table) → Except TranslationError (List (String × TranslationNode))
  | [] => .ok []
  | ft :: rest =>
    match nodeOfTable reg ft.2 with
    | some n =>
      match build_assocs reg rest with
      | .ok l => .ok ((ft.1, n) :: l)
      | .error e => .error e
    | none => .error (.invalidTomlFormat ft.1)

/-- Loading, `load_translations` of `translatable_proc/src/data/translations.rs`:
build the association list of nodes, then reverse it when the overlap
policy is `Overwrite`. -/
def load_translations_proc (reg : List String) (ov : TranslationOverlap)
    (files : List (String × Table)) : Except TranslationError (List (String × TranslationNode)) :=
  match build_assocs reg files with
  | .ok assocs => .ok (if ov = .overwrite then assocs.reverse else assocs)
  | .error e => .error e

/-- Resolution, `load_translation_static` of
`translatable_proc/src/macro_generation/translation.rs` (static language
case): `find_map` the path over the loaded associations
(`PathNotFound` if none yields a result), then fetch the language from
the found Translation Object (`LanguageNotAvailable` if absent).  The
language was already validated by `load_lang_static`, so it is assumed
registry-valid by the theorems below. -/
def load_translation_static_proc (reg : List String) (ov : TranslationOverlap)
    (files : List (String × Table)) (lang path : String) :
    Except TranslationError String :=
  match load_translations_proc reg ov files with
  | .error e => .error e
  | .ok assocs =>
    match assocs.findSome? (fun a => a.2.getPath (splitPath path)) with
    | none => .error (.pathNotFound path)
    | some obj =>
      match objGet obj lang with
      | none => .error (.languageNotAvailable lang path)
      | some s => .ok s

/-- The view of a walked-to table as a leaf Translation Object: tables
whose first entry is a string are leaf-shaped and yield their validated
object; namespaces (empty or table-headed tables) yield none. -/
def leafView (reg : List String) : Table → Option (List (String × String))
  | .cons k (.str s) rest => leafOfTable reg (.cons k (.str s) rest)
  | _ => none

/-- A query-dependent side condition on one file: if the raw resolver's
walk matches the language at the end of the path, the matched value is a
string (rather than a nested table that happens to be keyed by the
language name). -/
def strUnderLang (t : Table) (lang : String) (segs : List String) : Bool :=
  match lookupTrans t lang segs with
  | some (.str _) => true
  | some _ => false
  | none => true

/-- A query-dependent side condition on one file: if the walk reaches a
leaf Translation Object, that object defines the requested language. -/
def leafHasLang (reg : List String) (t : Table) (lang : String) (segs : List String) : Bool :=
  match walkTables t segs with
  | some T =>
    match leafView reg T with
    | some obj => (objGet obj lang).isSome
    | none => true
  | none => true

/-- Does the table have a direct string-valued entry? -/
def Table.hasStrChild : Table → Bool
  | .nil => false
  | .cons _ (.str _) _ => true
  | .cons _ _ rest => rest.hasStrChild

/-- Does the table have a direct table-valued entry? -/
def Table.hasTabChild : Table → Bool
  | .nil => false
  | .cons _ (.table _) _ => true
  | .cons _ _ rest => rest.hasTabChild

/-- Is there a level of the table (the table itself or any table nested
below it) having both a string-valued entry and a table-valued entry
among its direct children? -/
def Table.hasMixedLevel : Table → Bool
  | .nil => false
  | .cons k v rest =>
    (Table.hasStrChild (.cons k v rest) && Table.hasTabChild (.cons k v rest))
      || (match v with
          | .table sub => sub.hasMixedLevel
          | _ => false)
      || rest.hasMixedLevel

/-- How one resolution outcome of the raw pipeline lines up with one
outcome of the node pipeline at the same query: either the raw loop
matched a string that the node-side Translation Object also carries, or
neither side found anything. -/
def PipeLink (lang : String) (rawFound : Option Value)
    (nodeFound : Option (List (String × String))) : Prop :=
  (∃ s obj, rawFound = some (.str s) ∧ nodeFound = some obj ∧ objGet obj lang = some s)
    ∨ (rawFound = none ∧ nodeFound = none)

/-! Concrete tables used by the claim theorems and witnesses. -/

/-- A file defining the template `hola` at path `greeting` for `es`. -/
def tableHola : Table := .cons "greeting" (.table (.cons "es" (.str "hola") .nil)) .nil

/-- A file whose path `greeting` ends on a namespace that itself has a
child table named `es` (the table `[greeting.es]` with `en = "hi"`). -/
def tableNested : Table :=
  .cons "greeting" (.table (.cons "es" (.table (.cons "en" (.str "hi") .nil)) .nil)) .nil

/-- A file defining `a.en = "one"`. -/
def tableOne : Table := .cons "a" (.table (.cons "en" (.str "one") .nil)) .nil

/-- A file defining `a.en = "two"`. -/
def tableTwo : Table := .cons "a" (.table (.cons "en" (.str "two") .nil)) .nil

/-- A file defining only the unrelated path `b.en`. -/
def tableOther : Table := .cons "b" (.table (.cons "en" (.str "misc") .nil)) .nil

/-- A loaded node holding `a` at path `x` for `en`. -/
def nodeLeafA : TranslationNode := .nspace (.cons "x" (.leaf [("en", "a")]) .nil)

/-- A loaded node holding `b` at path `x` for `en`. -/
def nodeLeafB : TranslationNode := .nspace (.cons "x" (.leaf [("en", "b")]) .nil)

/-! Helper lemmas about the raw pipeline. -/

/-- When every file passes validation, `load_translations` returns all
tables in their given order. -/
theorem load_translations_all_valid (reg : List String) :
    ∀ files : List (String × Table), files.all (fun ft => translations_valid reg ft.2) = true →
      load_translations reg files = .ok (files.map Prod.snd)
  | [], _ => rfl
  | (p, t) :: rest, h => by
    simp only [List.all_cons, Bool.and_eq_true] at h
    simp [load_translations, h.1, load_translations_all_valid reg rest h.2]

/-- Loading stops with an error naming the first invalid file. -/
theorem load_translations_error_at (reg : List String) (p : String) (t : Table)
    (post : List (String × Table)) (ht : translations_valid reg t = false) :
    ∀ pre : List (String × Table), pre.all (fun ft => translations_valid reg ft.2) = true →
      load_translations reg (pre ++ (p, t) :: post) = .error (.invalidTomlFormat p)
  | [], _ => by simp [load_translations, ht]
  | (q, u) :: pre', h => by
    simp only [List.all_cons, Bool.and_eq_true] at h
    simp [load_translations, h.1, load_translations_error_at reg p t post ht pre' h.2]

/-- A list on which the search function never fires yields no result. -/
theorem findSome?_none_of_all {α β : Type} (f : α → Option β) :
    ∀ l : List α, l.all (fun a => (f a).isNone) = true → l.findSome? f = none
  | [], _ => rfl
  | a :: l, h => by
    simp only [List.all_cons, Bool.and_eq_true, Option.isNone_iff_eq_none] at h
    simp [List.findSome?_cons, h.1, findSome?_none_of_all f l h.2]

/-- The fact that `all` over a second-projection map, in the shape the pipeline lemmas
need. -/
theorem all_map_snd {α β : Type} (p : β → Bool) :
    ∀ l : List (α × β), (l.map Prod.snd).all p = l.all (fun ab => p ab.2)
  | [] => rfl
  | ab :: l => by simp [all_map_snd p l]

/-- Under the `Ignore` policy the resolver loop returns the first match. -/
theorem rawChoose_ignore_eq (lang : String) (segs : List String) :
    ∀ ts : List Table, rawChoose .ignore ts lang segs none
      = (ts.findSome? (fun t => lookupTrans t lang segs)).map Value.tomlDisplay
  | [] => rfl
  | t :: rest => by
    cases h : lookupTrans t lang segs with
    | some v => simp [rawChoose, List.findSome?_cons, h]
    | none => simp [rawChoose, List.findSome?_cons, h, rawChoose_ignore_eq lang segs rest]

/-- Under the `Overwrite` policy the resolver loop keeps overwriting its
accumulator, so it ends on the last match -- the first match of the
reversed list -- and falls back to the incoming accumulator. -/
theorem rawChoose_overwrite_eq (lang : String) (segs : List String) :
    ∀ (ts : List Table) (ch : Option String), rawChoose .overwrite ts lang segs ch
      = ((ts.reverse.findSome? (fun t => lookupTrans t lang segs)).map Value.tomlDisplay).or ch
  | [], ch => by simp [rawChoose]
  | t :: rest, ch => by
    cases h : lookupTrans t lang segs with
    | some v =>
      simp only [rawChoose, h, rawChoose_overwrite_eq lang segs rest, List.reverse_cons,
        List.findSome?_append, List.findSome?_cons]
      cases hr : rest.reverse.findSome? (fun t => lookupTrans t lang segs) <;> simp [h]
    | none =>
      simp only [rawChoose, h, rawChoose_overwrite_eq lang segs rest, List.reverse_cons,
        List.findSome?_append, List.findSome?_cons]
      cases hr : rest.reverse.findSome? (fun t => lookupTrans t lang segs) <;> simp [h]

/-! Mixed-level tables never validate. -/

/-- Once a translation has been seen (`contains_translation` flag), a
table with a table-valued entry is invalid. -/
theorem aux_false_of_hasTab (reg : List String) :
    ∀ (t : Table) (cb : Bool), t.hasTabChild = true → translationsValidAux reg t true cb = false
  | .nil, _, h => by simp [Table.hasTabChild] at h
  | .cons k (.table sub) rest, cb, _ => by simp [translationsValidAux]
  | .cons k (.str s) rest, cb, h => by
    simp only [Table.hasTabChild] at h
    simp [translationsValidAux, aux_false_of_hasTab reg rest cb h]
  | .cons k .other rest, cb, _ => by simp [translationsValidAux]

/-- Once a table has been seen (`contains_table` flag), a table with a
string-valued entry is invalid. -/
theorem aux_false_of_hasStr (reg : List String) :
    ∀ (t : Table) (ct : Bool), t.hasStrChild = true → translationsValidAux reg t ct true = false
  | .nil, _, h => by simp [Table.hasStrChild] at h
  | .cons k (.str s) rest, ct, _ => by simp [translationsValidAux]
  | .cons k (.table sub) rest, ct, h => by
    simp only [Table.hasStrChild] at h
    simp [translationsValidAux, aux_false_of_hasStr reg rest ct h]
  | .cons k .other rest, ct, _ => by simp [translationsValidAux]

/-- A table with a mixed level anywhere below it fails validation,
whatever the incoming flags. -/
theorem aux_false_of_mixed (reg : List String) :
    ∀ (t : Table) (ct cb : Bool), t.hasMixedLevel = true → translationsValidAux reg t ct cb = false
  | .nil, _, _, h => by simp [Table.hasMixedLevel] at h
  | .cons k (.str s) rest, ct, cb, h => by
    simp only [Table.hasMixedLevel, Table.hasStrChild, Table.hasTabChild, Bool.true_and,
      Bool.or_false, Bool.or_eq_true] at h
    rcases h with h | h
    · simp [translationsValidAux, aux_false_of_hasTab reg rest cb h]
    · simp [translationsValidAux, aux_false_of_mixed reg rest true cb h]
  | .cons k (.table sub) rest, ct, cb, h => by
    simp only [Table.hasMixedLevel, Table.hasStrChild, Table.hasTabChild, Bool.and_true,
      Bool.or_eq_true] at h
    rcases h with (h | h) | h
    · simp [translationsValidAux, aux_false_of_hasStr reg rest ct h]
    · simp [translationsValidAux, aux_false_of_mixed reg sub false false h]
    · simp [translationsValidAux, aux_false_of_mixed reg rest ct true h]
  | .cons k .other rest, ct, cb, _ => by simp [translationsValidAux]

/-! Correspondence between the raw-table walk and the node-side walk. -/

/-- Entered with the translation flag set, a valid table builds a leaf
Translation Object: every entry is a validated language/template pair. -/
theorem leafOf_of_aux (reg : List String) :
    ∀ (t : Table) (cb : Bool), translationsValidAux reg t true cb = true →
      (leafOfTable reg t).isSome = true
  | .nil, _, _ => rfl
  | .cons k (.str s) rest, cb, h => by
    simp only [translationsValidAux, Bool.and_eq_true] at h
    obtain ⟨-, hk, hbal, hrest⟩ := h
    obtain ⟨obj, hobj⟩ := Option.isSome_iff_exists.1 (leafOf_of_aux reg rest cb hrest)
    simp [leafOfTable, hk, hbal, hobj]
  | .cons k (.table sub) rest, cb, h => by simp [translationsValidAux] at h
  | .cons k .other rest, _, h => by simp [translationsValidAux] at h

/-- A valid table constructs a `TranslationNode`; if moreover it has no
string-valued entry, its entries build as namespace children. -/
theorem node_of_valid (reg : List String) :
    ∀ (t : Table) (ct cb : Bool), translationsValidAux reg t ct cb = true →
      (nodeOfTable reg t).isSome = true ∧
        (t.hasStrChild = false → (nodeEntriesOfTable reg t).isSome = true) := by
  intro t ct cb
  induction t, ct, cb using translationsValidAux.induct reg with
  | case1 ct cb => exact fun _ => ⟨rfl, fun _ => rfl⟩
  | case2 k rest ct cb sub IHsub IHrest =>
    intro h
    simp only [translationsValidAux, Bool.and_eq_true, Bool.not_eq_true'] at h
    obtain ⟨⟨hct, hsub⟩, hrest⟩ := h
    obtain ⟨n, hn⟩ := Option.isSome_iff_exists.1 (IHsub hsub).1
    have hnostr : rest.hasStrChild = false := by
      cases hcs : rest.hasStrChild with
      | false => rfl
      | true => rw [aux_false_of_hasStr reg rest ct hcs] at hrest; cases hrest
    obtain ⟨es, hes⟩ := Option.isSome_iff_exists.1 ((IHrest hrest).2 hnostr)
    refine ⟨?_, fun _ => ?_⟩ <;> simp [nodeOfTable, nodeEntriesOfTable, hn, hes]
  | case3 k rest ct cb s IHrest =>
    intro h
    simp only [translationsValidAux, Bool.and_eq_true] at h
    obtain ⟨-, hk, hbal, hrest⟩ := h
    obtain ⟨obj, hobj⟩ := Option.isSome_iff_exists.1 (leafOf_of_aux reg rest _ hrest)
    refine ⟨by simp [nodeOfTable, leafOfTable, hk, hbal, hobj], fun hfalse => ?_⟩
    simp [Table.hasStrChild] at hfalse
  | case4 k rest ct cb => intro h; simp [translationsValidAux] at h

/-- A constructed leaf object mirrors its source table entry for entry:
looking a key up in the table gives exactly the string stored in the
object. -/
theorem leafObj_get (reg : List String) :
    ∀ (t : Table) (obj : List (String × String)), leafOfTable reg t = some obj →
      ∀ lang, t.get lang = (objGet obj lang).map Value.str
  | .nil, obj, h, lang => by
    simp only [leafOfTable, Option.some.injEq] at h
    subst h
    simp [Table.get, objGet]
  | .cons k (.str s) rest, obj, h, lang => by
    simp only [leafOfTable] at h
    cases hc : (isValidLang reg k && (braceBalance s == 0)) with
    | false => rw [hc] at h; cases h
    | true =>
      rw [hc] at h
      simp only [if_true] at h
      cases hrest : leafOfTable reg rest with
      | none => rw [hrest] at h; cases h
      | some obj' =>
        rw [hrest] at h
        simp only [Option.map_some', Option.some.injEq] at h
        subst h
        by_cases hk : k = lang
        · simp [Table.get, objGet, hk]
        · simp [Table.get, objGet, hk, leafObj_get reg rest obj' hrest lang]
  | .cons k (.table sub) rest, obj, h, lang => by simp [leafOfTable] at h
  | .cons k .other rest, obj, h, lang => by simp [leafOfTable] at h

/-- Every value found inside namespace children built from a table is a
table value whose own node construction succeeded. -/
theorem entries_get_table (reg : List String) :
    ∀ (t : Table) (es : NodeEntries), nodeEntriesOfTable reg t = some es →
      ∀ (s : String) (v : Value), t.get s = some v →
        ∃ sub, v = .table sub ∧ (nodeOfTable reg sub).isSome = true
  | .nil, es, _, s, v, hget => by simp [Table.get] at hget
  | .cons k (.table sub) rest, es, h, s, v, hget => by
    simp only [nodeEntriesOfTable] at h
    cases hn : nodeOfTable reg sub with
    | none => rw [hn] at h; cases h
    | some n =>
      cases he : nodeEntriesOfTable reg rest with
      | none => rw [hn, he] at h; cases h
      | some es' =>
        simp only [Table.get] at hget
        by_cases hk : k = s
        · rw [if_pos hk] at hget
          refine ⟨sub, ?_, by simp [hn]⟩
          exact (Option.some.injEq _ _ ▸ hget).symm
        · rw [if_neg hk] at hget
          exact entries_get_table reg rest es' he s v hget
  | .cons k (.str _) rest, es, h, s, v, hget => by simp [nodeEntriesOfTable] at h
  | .cons k .other rest, es, h, s, v, hget => by simp [nodeEntriesOfTable] at h

/-- One step of the walk stays constructible: a table child of a
constructible table is itself constructible. -/
theorem node_get_tableChild (reg : List String) :
    ∀ (t : Table) (n : TranslationNode), nodeOfTable reg t = some n →
      ∀ (s : String) (v : Value), t.get s = some v →
        ∀ sub, v.as_table = some sub → (nodeOfTable reg sub).isSome = true
  | .nil, n, hn, s, v, hget, sub, hsub => by simp [Table.get] at hget
  | .cons k (.str s0) rest, n, hn, s, v, hget, sub, hsub => by
    simp only [nodeOfTable] at hn
    cases hL : leafOfTable reg (.cons k (.str s0) rest) with
    | none => rw [hL] at hn; cases hn
    | some obj =>
      have hmirror := leafObj_get reg _ obj hL s
      rw [hget] at hmirror
      cases ho : objGet obj s with
      | none => rw [ho] at hmirror; cases hmirror
      | some w =>
        rw [ho] at hmirror
        simp only [Option.map_some', Option.some.injEq] at hmirror
        subst hmirror
        simp [Value.as_table] at hsub
  | .cons k (.table sub0) rest, n, hn, s, v, hget, sub, hsub => by
    simp only [nodeOfTable] at hn
    cases hns : nodeOfTable reg sub0 with
    | none => rw [hns] at hn; cases hn
    | some n0 =>
      cases he : nodeEntriesOfTable reg rest with
      | none => rw [hns, he] at hn; cases hn
      | some es =>
        simp only [Table.get] at hget
        by_cases hk : k = s
        · rw [if_pos hk] at hget
          have hv : v = .table sub0 := (Option.some.injEq _ _ ▸ hget).symm
          subst hv
          simp only [Value.as_table, Option.some.injEq] at hsub
          subst hsub
          simp [hns]
        · rw [if_neg hk] at hget
          obtain ⟨sub', hv, hs⟩ := entries_get_table reg rest es he s v hget
          subst hv
          simp only [Value.as_table, Option.some.injEq] at hsub
          subst hsub
          exact hs
  | .cons k .other rest, n, hn, s, v, hget, sub, hsub => by simp [nodeOfTable] at hn

/-- Constructibility is preserved along the whole raw walk. -/
theorem walk_constructible (reg : List String) :
    ∀ (segs : List String) (t : Table) (n : TranslationNode), nodeOfTable reg t = some n →
      ∀ T, walkTables t segs = some T → (nodeOfTable reg T).isSome = true
  | [], t, n, hn, T, hw => by
    simp only [walkTables, Option.some.injEq] at hw
    subst hw
    simp [hn]
  | s :: rest, t, n, hn, T, hw => by
    simp only [walkTables] at hw
    cases hget : t.get s with
    | none => rw [hget] at hw; cases hw
    | some v =>
      rw [hget] at hw
      dsimp only at hw
      cases hat : v.as_table with
      | none => rw [hat] at hw; cases hw
      | some sub =>
        rw [hat] at hw
        dsimp only at hw
        obtain ⟨m, hm⟩ := Option.isSome_iff_exists.1
          (node_get_tableChild reg t n hn s v hget sub hat)
        exact walk_constructible reg rest sub m hm T hw

/-- A non-none `leafView` is exactly a successful leaf construction. -/
theorem leafView_eq_leafOf (reg : List String) :
    ∀ (T : Table) (obj : List (String × String)), leafView reg T = some obj →
      leafOfTable reg T = some obj
  | .nil, obj, h => by simp [leafView] at h
  | .cons k (.str s) rest, obj, h => h
  | .cons k (.table sub) rest, obj, h => by simp [leafView] at h
  | .cons k .other rest, obj, h => by simp [leafView] at h

/-- When the language lookup inside a constructible table yields a
string, the table is leaf-shaped and its object carries that string. -/
theorem leafView_of_get_str (reg : List String) :
    ∀ (T : Table) (m : TranslationNode), nodeOfTable reg T = some m →
      ∀ (lang s0 : String), T.get lang = some (.str s0) →
        ∃ obj, leafView reg T = some obj ∧ objGet obj lang = some s0
  | .nil, m, hm, lang, s0, hget => by simp [Table.get] at hget
  | .cons k (.str s) rest, m, hm, lang, s0, hget => by
    simp only [nodeOfTable] at hm
    cases hL : leafOfTable reg (.cons k (.str s) rest) with
    | none => rw [hL] at hm; cases hm
    | some obj =>
      refine ⟨obj, hL, ?_⟩
      have hmirror := leafObj_get reg _ obj hL lang
      rw [hget] at hmirror
      cases ho : objGet obj lang with
      | none => rw [ho] at hmirror; cases hmirror
      | some w =>
        rw [ho] at hmirror
        simp only [Option.map_some', Option.some.injEq, Value.str.injEq] at hmirror
        rw [hmirror]
  | .cons k (.table sub) rest, m, hm, lang, s0, hget => by
    simp only [nodeOfTable] at hm
    cases hns : nodeOfTable reg sub with
    | none => rw [hns] at hm; cases hm
    | some n0 =>
      cases he : nodeEntriesOfTable reg rest with
      | none => rw [hns, he] at hm; cases hm
      | some es =>
        exfalso
        simp only [Table.get] at hget
        by_cases hk : k = lang
        · rw [if_pos hk] at hget; cases hget
        · rw [if_neg hk] at hget
          obtain ⟨sub', hv, -⟩ := entries_get_table reg rest es he lang _ hget
          cases hv
  | .cons k .other rest, m, hm, lang, s0, hget => by simp [nodeOfTable] at hm

/-- A leaf-shaped table has no table-valued entries, so any lookup in it
followed by `as_table` fails. -/
theorem leafOf_get_no_table (reg : List String) (T : Table)
    (obj : List (String × String)) (hL : leafOfTable reg T = some obj) (s : String) :
    (T.get s).bind Value.as_table = none := by
  have hmirror := leafObj_get reg T obj hL s
  rw [hmirror]
  cases objGet obj s <;> simp [Value.as_table]

/-- The namespace-children search of `get_path` agrees with the raw walk
on the table the children were built from, given the correspondence for
the remaining segments. -/
theorem seek_walk (reg : List String) (rest' : List String)
    (IH : ∀ (t : Table) (n : TranslationNode), nodeOfTable reg t = some n →
      n.getPath rest' = (walkTables t rest').bind (leafView reg)) :
    ∀ (r : Table) (es : NodeEntries), nodeEntriesOfTable reg r = some es →
      ∀ s, NodeEntries.seek es s rest' = (walkTables r (s :: rest')).bind (leafView reg)
  | .nil, es, h, s => by
    simp only [nodeEntriesOfTable, Option.some.injEq] at h
    subst h
    simp [NodeEntries.seek, walkTables, Table.get]
  | .cons k (.table sub) r2, es, h, s => by
    simp only [nodeEntriesOfTable] at h
    cases hns : nodeOfTable reg sub with
    | none => rw [hns] at h; cases h
    | some m =>
      cases he2 : nodeEntriesOfTable reg r2 with
      | none => rw [hns, he2] at h; cases h
      | some es2 =>
        rw [hns, he2] at h
        simp only [Option.some.injEq] at h
        subst h
        by_cases hk : k = s
        · simp only [NodeEntries.seek, if_pos hk, walkTables, Table.get, Value.as_table]
          rw [IH sub m hns]
        · simp only [NodeEntries.seek, if_neg hk, walkTables, Table.get]
          rw [seek_walk reg rest' IH r2 es2 he2 s]
          simp only [walkTables]
  | .cons k (.str _) r2, es, h, s => by simp [nodeEntriesOfTable] at h
  | .cons k .other r2, es, h, s => by simp [nodeEntriesOfTable] at h

/-- The walk correspondence: on a constructible table, the node-side
`get_path` yields exactly the leaf view at the end of the raw walk. -/
theorem getPath_walk (reg : List String) :
    ∀ (segs : List String) (t : Table) (n : TranslationNode), nodeOfTable reg t = some n →
      n.getPath segs = (walkTables t segs).bind (leafView reg)
  | [], .nil, n, hn => by
    simp only [nodeOfTable, Option.some.injEq] at hn
    subst hn
    simp [TranslationNode.getPath, walkTables, leafView]
  | [], .cons k (.str s) rest, n, hn => by
    simp only [nodeOfTable] at hn
    cases hL : leafOfTable reg (.cons k (.str s) rest) with
    | none => rw [hL] at hn; cases hn
    | some obj =>
      rw [hL] at hn
      simp only [Option.map_some', Option.some.injEq] at hn
      subst hn
      simp [TranslationNode.getPath, walkTables, leafView, hL]
  | [], .cons k (.table sub) rest, n, hn => by
    simp only [nodeOfTable] at hn
    cases hns : nodeOfTable reg sub with
    | none => rw [hns] at hn; cases hn
    | some m =>
      cases he : nodeEntriesOfTable reg rest with
      | none => rw [hns, he] at hn; cases hn
      | some es =>
        rw [hns, he] at hn
        simp only [Option.some.injEq] at hn
        subst hn
        simp [TranslationNode.getPath, walkTables, leafView]
  | [], .cons k .other rest, n, hn => by simp [nodeOfTable] at hn
  | s :: rest', .nil, n, hn => by
    simp only [nodeOfTable, Option.some.injEq] at hn
    subst hn
    simp [TranslationNode.getPath, NodeEntries.seek, walkTables, Table.get]
  | s :: rest', .cons k (.str s0) rest, n, hn => by
    simp only [nodeOfTable] at hn
    cases hL : leafOfTable reg (.cons k (.str s0) rest) with
    | none => rw [hL] at hn; cases hn
    | some obj =>
      rw [hL] at hn
      simp only [Option.map_some', Option.some.injEq] at hn
      subst hn
      have hnt := leafOf_get_no_table reg _ obj hL s
      simp only [TranslationNode.getPath, walkTables]
      cases hget : Table.get (.cons k (.str s0) rest) s with
      | none => simp
      | some v =>
        rw [hget] at hnt
        simp only [Option.some_bind] at hnt
        simp [hnt]
  | s :: rest', .cons k (.table sub) rest, n, hn => by
    simp only [nodeOfTable] at hn
    cases hns : nodeOfTable reg sub with
    | none => rw [hns] at hn; cases hn
    | some m =>
      cases he : nodeEntriesOfTable reg rest with
      | none => rw [hns, he] at hn; cases hn
      | some es =>
        rw [hns, he] at hn
        simp only [Option.some.injEq] at hn
        subst hn
        have hes : nodeEntriesOfTable reg (.cons k (.table sub) rest)
            = some (.cons k m es) := by
          simp [nodeEntriesOfTable, hns, he]
        simp only [TranslationNode.getPath]
        exact seek_walk reg rest' (fun t' n' h' => getPath_walk reg rest' t' n' h')
          (.cons k (.table sub) rest) (.cons k m es) hes s
  | s :: rest', .cons k .other rest, n, hn => by simp [nodeOfTable] at hn

/-- Per-file agreement of the two pipelines under the two side
conditions: a file matches the raw resolver exactly when its node
matches the path, and the found string is the one stored in the found
Translation Object. -/
theorem file_link (reg : List String) (lang : String) (segs : List String) (t : Table)
    (n : TranslationNode) (hn : nodeOfTable reg t = some n)
    (hstr : strUnderLang t lang segs = true)
    (hleaf : leafHasLang reg t lang segs = true) :
    PipeLink lang (lookupTrans t lang segs) (n.getPath segs) := by
  rw [getPath_walk reg segs t n hn]
  cases hw : walkTables t segs with
  | none => right; simp [lookupTrans, hw]
  | some T =>
    obtain ⟨m, hm⟩ := Option.isSome_iff_exists.1 (walk_constructible reg segs t n hn T hw)
    simp only [lookupTrans, hw, Option.some_bind]
    cases hg : T.get lang with
    | none =>
      right
      refine ⟨rfl, ?_⟩
      cases hv : leafView reg T with
      | none => rfl
      | some obj =>
        exfalso
        have hobj := leafView_eq_leafOf reg T obj hv
        have hmirror := leafObj_get reg T obj hobj lang
        rw [hg] at hmirror
        have hLl := hleaf
        unfold leafHasLang at hLl
        rw [hw] at hLl
        dsimp only at hLl
        rw [hv] at hLl
        dsimp only at hLl
        cases ho : objGet obj lang with
        | none => rw [ho] at hLl; cases hLl
        | some s0 => rw [ho] at hmirror; cases hmirror
    | some v =>
      have hstr' := hstr
      unfold strUnderLang lookupTrans at hstr'
      rw [hw] at hstr'
      simp only [Option.some_bind, hg] at hstr'
      cases v with
      | table tt => cases hstr'
      | other => cases hstr'
      | str s0 =>
        left
        obtain ⟨obj, hov, ho⟩ := leafView_of_get_str reg T m hm lang s0 hg
        exact ⟨s0, obj, rfl, by simp [hov], ho⟩

/-- When every file validates, building the node associations
succeeds. -/
theorem build_ok_of_valid (reg : List String) :
    ∀ files : List (String × Table), files.all (fun ft => translations_valid reg ft.2) = true →
      ∃ assocs, build_assocs reg files = .ok assocs
  | [], _ => ⟨[], rfl⟩
  | ft :: rest, h => by
    simp only [List.all_cons, Bool.and_eq_true] at h
    obtain ⟨assocs, ha⟩ := build_ok_of_valid reg rest h.2
    obtain ⟨n, hn⟩ := Option.isSome_iff_exists.1 (node_of_valid reg ft.2 false false h.1).1
    exact ⟨(ft.1, n) :: assocs, by simp [build_assocs, hn, ha]⟩

/-- Building associations distributes over list append when both halves
succeed. -/
theorem build_append (reg : List String) :
    ∀ (l1 l2 : List (String × Table)) (a1 a2 : List (String × TranslationNode)),
      build_assocs reg l1 = .ok a1 → build_assocs reg l2 = .ok a2 →
      build_assocs reg (l1 ++ l2) = .ok (a1 ++ a2)
  | [], l2, a1, a2, h1, h2 => by
    simp only [build_assocs, Except.ok.injEq] at h1
    subst h1
    simpa using h2
  | ft :: l1', l2, a1, a2, h1, h2 => by
    simp only [build_assocs] at h1
    cases hn : nodeOfTable reg ft.2 with
    | none => rw [hn] at h1; cases h1
    | some n =>
      rw [hn] at h1
      cases hb : build_assocs reg l1' with
      | error e => rw [hb] at h1; cases h1
      | ok l =>
        rw [hb] at h1
        simp only [Except.ok.injEq] at h1
        subst h1
        simp [build_assocs, hn, build_append reg l1' l2 l a2 hb h2]

/-- A successful association build of the reversed file list yields the
reversed associations. -/
theorem build_reverse (reg : List String) :
    ∀ (files : List (String × Table)) (assocs : List (String × TranslationNode)),
      build_assocs reg files = .ok assocs →
      build_assocs reg files.reverse = .ok assocs.reverse
  | [], assocs, h => by
    simp only [build_assocs, Except.ok.injEq] at h
    subst h
    rfl
  | ft :: rest, assocs, h => by
    simp only [build_assocs] at h
    cases hn : nodeOfTable reg ft.2 with
    | none => rw [hn] at h; cases h
    | some n =>
      rw [hn] at h
      cases hb : build_assocs reg rest with
      | error e => rw [hb] at h; cases h
      | ok l =>
        rw [hb] at h
        simp only [Except.ok.injEq] at h
        subst h
        have hsingle : build_assocs reg [ft] = .ok [(ft.1, n)] := by
          simp [build_assocs, hn]
        simpa [List.reverse_cons] using
          build_append reg rest.reverse [ft] l.reverse [(ft.1, n)]
            (build_reverse reg rest l hb) hsingle

/-- Agreement of the two first-match searches over a whole file list,
file by file. -/
theorem pipelines_findSome (reg : List String) (lang : String) (segs : List String) :
    ∀ (files : List (String × Table)) (assocs : List (String × TranslationNode)),
      build_assocs reg files = .ok assocs →
      files.all (fun ft => strUnderLang ft.2 lang segs) = true →
      files.all (fun ft => leafHasLang reg ft.2 lang segs) = true →
      PipeLink lang ((files.map Prod.snd).findSome? (fun t => lookupTrans t lang segs))
        (assocs.findSome? (fun a => a.2.getPath segs))
  | [], assocs, h, _, _ => by
    simp only [build_assocs, Except.ok.injEq] at h
    subst h
    right
    simp
  | ft :: rest, assocs, h, hs, hl => by
    simp only [build_assocs] at h
    simp only [List.all_cons, Bool.and_eq_true] at hs hl
    cases hn : nodeOfTable reg ft.2 with
    | none => rw [hn] at h; cases h
    | some n =>
      rw [hn] at h
      cases hb : build_assocs reg rest with
      | error e => rw [hb] at h; cases h
      | ok l =>
        rw [hb] at h
        simp only [Except.ok.injEq] at h
        subst h
        rcases file_link reg lang segs ft.2 n hn hs.1 hl.1 with ⟨s0, obj, hr, hq, ho⟩ | ⟨hr, hq⟩
        · left
          exact ⟨s0, obj, by simp [List.findSome?_cons, hr], by simp [List.findSome?_cons, hq], ho⟩
        · have hrest := pipelines_findSome reg lang segs rest l hb hs.2 hl.2
          simpa [List.findSome?_cons, hr, hq] using hrest

/-- C10 counterexample: on the single file `greeting.es = "hola"` the
node pipeline returns `hola` while the runtime raw pipeline returns the
TOML-quoted serialization, so the two pipelines do not produce the
identical translation string. -/
theorem c10_pipelines_differ :
    load_translation_static_proc ["es"] .ignore [("f.toml", tableHola)] "es" "greeting"
        = .ok "hola"
      ∧ load_translation_static ["es"] .ignore [("f.toml", tableHola)] "es" "greeting"
          = .ok (some (tomlQuote "hola"))
      ∧ tomlQuote "hola" ≠ "hola" :=
  ⟨rfl, rfl, by decide⟩

/-- C10 (amended): for a valid file set, a registry-valid language and
any path, provided that along the queried path (i) no file's raw match
finds a non-string value under the language key and (ii) every file
whose walk reaches a leaf object defines the requested language, the two
pipelines agree up to TOML string serialization: the node pipeline
returns `s` exactly when the raw pipeline returns the TOML-quoted form
of `s`, and the raw pipeline finds nothing exactly when the node
pipeline reports path-not-found. -/
theorem c10_refinement_up_to_serialization (reg : List String) (ov : TranslationOverlap)
    (files : List (String × Table)) (lang path : String)
    (hval : files.all (fun ft => translations_valid reg ft.2) = true)
    (hlang : isValidLang reg lang = true)
    (hstr : files.all (fun ft => strUnderLang ft.2 lang (splitPath path)) = true)
    (hleaf : files.all (fun ft => leafHasLang reg ft.2 lang (splitPath path)) = true) :
    (∃ s, load_translation_static_proc reg ov files lang path = .ok s
        ∧ load_translation_static reg ov files lang path = .ok (some (tomlQuote s)))
      ∨ (load_translation_static_proc reg ov files lang path = .error (.pathNotFound path)
        ∧ load_translation_static reg ov files lang path = .ok none) := by
  obtain ⟨assocs, hb⟩ := build_ok_of_valid reg files hval
  have hraw : load_translation_static reg ov files lang path
      = .ok (rawChoose ov (files.map Prod.snd) lang (splitPath path) none) := by
    rw [load_translation_static, load_translations_all_valid reg files hval, hlang]
    rfl
  have hassocs : load_translations_proc reg ov files
      = .ok (if ov = .overwrite then assocs.reverse else assocs) := by
    rw [load_translations_proc, hb]
  have hlink : PipeLink lang
      ((if ov = .overwrite then (files.map Prod.snd).reverse else files.map Prod.snd).findSome?
        (fun t => lookupTrans t lang (splitPath path)))
      ((if ov = .overwrite then assocs.reverse else assocs).findSome?
        (fun a => a.2.getPath (splitPath path))) := by
    cases ov with
    | ignore =>
      simpa using pipelines_findSome reg lang (splitPath path) files assocs hb hstr hleaf
    | overwrite =>
      have hrev := pipelines_findSome reg lang (splitPath path) files.reverse assocs.reverse
        (build_reverse reg files assocs hb)
        (by rw [List.all_reverse]; exact hstr)
        (by rw [List.all_reverse]; exact hleaf)
      simpa [List.map_reverse] using hrev
  have hchoose : rawChoose ov (files.map Prod.snd) lang (splitPath path) none
      = ((if ov = .overwrite then (files.map Prod.snd).reverse
          else files.map Prod.snd).findSome?
            (fun t => lookupTrans t lang (splitPath path))).map Value.tomlDisplay := by
    cases ov with
    | ignore => simpa using rawChoose_ignore_eq lang (splitPath path) (files.map Prod.snd)
    | overwrite =>
      simpa [Option.or_none] using
        rawChoose_overwrite_eq lang (splitPath path) (files.map Prod.snd) none
  rcases hlink with ⟨s0, obj, hr, hq, ho⟩ | ⟨hr, hq⟩
  · left
    refine ⟨s0, ?_, ?_⟩
    · rw [load_translation_static_proc, hassocs]
      simp [hq, ho]
    · rw [hraw, hchoose, hr]
      rfl
  · right
    refine ⟨?_, ?_⟩
    · rw [load_translation_static_proc, hassocs]
      simp [hq]
    · rw [hraw, hchoose, hr]
      rfl

/-- Witness for the amended C10 on a concrete two-file set under the
`Overwrite` policy. -/
theorem c10_witness :
    (∃ s, load_translation_static_proc ["en"] .overwrite
          [("1.toml", tableOne), ("2.toml", tableTwo)] "en" "a" = .ok s
        ∧ load_translation_static ["en"] .overwrite
            [("1.toml", tableOne), ("2.toml", tableTwo)] "en" "a" = .ok (some (tomlQuote s)))
      ∨ (load_translation_static_proc ["en"] .overwrite
            [("1.toml", tableOne), ("2.toml", tableTwo)] "en" "a" = .error (.pathNotFound "a")
        ∧ load_translation_static ["en"] .overwrite
            [("1.toml", tableOne), ("2.toml", tableTwo)] "en" "a" = .ok none) :=
  c10_refinement_up_to_serialization ["en"] .overwrite
    [("1.toml", tableOne), ("2.toml", tableTwo)] "en" "a"
    (by decide) (by decide) (by decide) (by decide)

/-- C1: the claim says `resolve` returns the stored template string byte
for byte.  The runtime resolver of `src/src/translations.rs` instead
returns `value.to_string()`, the TOML serialization of the stored value:
for the stored template `hola` it produces the quoted form, which is not
the stored bytes. -/
theorem c1_raw_resolver_serializes :
    load_translation_static ["es"] .ignore [("f.toml", tableHola)] "es" "greeting"
        = .ok (some (Value.tomlDisplay (.str "hola")))
      ∧ Value.tomlDisplay (.str "hola") ≠ "hola" :=
  ⟨rfl, by decide⟩

/-- C2: the claim says `{{name}}` survives substitution as the literal
`{name}`.  The generated chain first rewrites `{{name}}` to the sentinel
`\x01{name}\x01`, but that sentinel still contains `{name}`, so the
second phase substitutes inside it and the third phase finds nothing to
restore: the actual output is `\x01Ann\x01 is Ann`, not
`{name} is Ann`. -/
theorem c2_sentinel_not_collision_free :
    kwarg_static_replaces "name" "Ann" "\x7b\x7bname\x7d\x7d is \x7bname\x7d" = "\x01Ann\x01 is Ann"
      ∧ kwarg_static_replaces "name" "Ann" "\x7b\x7bname\x7d\x7d is \x7bname\x7d" ≠ "\x7bname\x7d is Ann" :=
  ⟨rfl, by decide⟩

/-- C3: the claim says the collection's `find_path` consults nodes in a
fixed, loader-determined order.  The collection stores its nodes in a
`HashMap`, whose iteration order is unrelated to insertion order: two
iteration orders of the same two-entry map make `find_path` return
different results, so no loader-determined precedence is encoded. -/
theorem c3_collection_order_not_loader_determined :
    List.Perm [("a.toml", nodeLeafA), ("b.toml", nodeLeafB)]
        [("b.toml", nodeLeafB), ("a.toml", nodeLeafA)]
      ∧ collectionFindPath [("a.toml", nodeLeafA), ("b.toml", nodeLeafB)] ["x"]
          ≠ collectionFindPath [("b.toml", nodeLeafB), ("a.toml", nodeLeafA)] ["x"] :=
  ⟨List.Perm.swap _ _ _, by decide⟩

/-- C6: the claim says substitution is independent of binding processing
order.  When one binding's value contains another key's placeholder the
per-key rewrites do not commute: on the template `{a}` with bindings
`a := {b}` and `b := X`, one order gives `X` and the other `{b}` -- and
the source iterates the bindings in `HashMap` order. -/
theorem c6_substitution_order_dependent :
    List.Perm [("a", "\x7bb\x7d"), ("b", "X")] [("b", "X"), ("a", "\x7bb\x7d")]
      ∧ substituteAll [("a", "\x7bb\x7d"), ("b", "X")] "\x7ba\x7d" = "X"
      ∧ substituteAll [("b", "X"), ("a", "\x7bb\x7d")] "\x7ba\x7d" = "\x7bb\x7d"
      ∧ ("X" : String) ≠ "\x7bb\x7d" :=
  ⟨List.Perm.swap _ _ _, rfl, rfl, by decide⟩

/-- C8: the claim says a walk that ends on a namespace before reaching a
leaf yields a not-found outcome, never a value.  `find_path` on the node
side indeed yields none, but the raw resolver then looks the language up
in the namespace table: when the namespace has a child table named like
the language (file `[greeting.es]` with `en = "hi"`, query `es` at path
`greeting`), it returns that child's TOML serialization as a value. -/
theorem c8_namespace_termination_yields_value :
    (nodeOfTable ["es", "en"] tableNested).bind (fun n => n.getPath (splitPath "greeting")) = none
      ∧ load_translation_static ["es", "en"] .ignore [("f.toml", tableNested)] "es" "greeting"
          = .ok (some (Value.tomlDisplay (.table (.cons "en" (.str "hi") .nil)))) :=
  ⟨rfl, rfl⟩

/-- C9: a table with a level mixing a table-valued and a string-valued
entry fails `translations_valid`, so loading fails with a structural
error naming the originating file (earlier files being valid); an empty
table is accepted by validation and constructs as an empty namespace. -/
theorem c9_mixed_level_rejected (reg : List String) (p : String) (t : Table)
    (pre post : List (String × Table))
    (hmix : t.hasMixedLevel = true)
    (hpre : pre.all (fun ft => translations_valid reg ft.2) = true) :
    load_translations reg (pre ++ (p, t) :: post) = .error (.invalidTomlFormat p)
      ∧ translations_valid reg .nil = true
      ∧ nodeOfTable reg .nil = some (.nspace .nil) := by
  refine ⟨?_, rfl, rfl⟩
  exact load_translations_error_at reg p t post
    (by simpa [translations_valid] using aux_false_of_mixed reg t false false hmix) pre hpre

/-- Witness for C9 at a concrete mixed file behind one valid file. -/
theorem c9_witness :
    load_translations ["en"]
        [("good.toml", tableOne),
         ("bad.toml", .cons "k" (.str "x") (.cons "m" (.table .nil) .nil))]
      = .error (.invalidTomlFormat "bad.toml") := by
  have h := c9_mixed_level_rejected ["en"] "bad.toml"
    (.cons "k" (.str "x") (.cons "m" (.table .nil) .nil))
    [("good.toml", tableOne)] [] (by decide) (by decide)
  exact h.1

/-- C4: under the `Overwrite` policy the resolver loop keeps overwriting
its accumulator with each match, so among the loaded files defining the
requested path and language the one latest in seek order wins: if file
`t` matches and no file after it matches, the resolver returns the
serialization of `t`'s stored value. -/
theorem c4_overwrite_later_file_wins (reg : List String) (lang path p : String) (t : Table)
    (v : Value) (pre post : List (String × Table))
    (hval : (pre ++ (p, t) :: post).all (fun ft => translations_valid reg ft.2) = true)
    (hlang : isValidLang reg lang = true)
    (hmatch : lookupTrans t lang (splitPath path) = some v)
    (hpost : post.all (fun ft => (lookupTrans ft.2 lang (splitPath path)).isNone) = true) :
    load_translation_static reg .overwrite (pre ++ (p, t) :: post) lang path
      = .ok (some v.tomlDisplay) := by
  rw [load_translation_static, load_translations_all_valid reg _ hval]
  rw [hlang]
  simp only [if_true]
  rw [rawChoose_overwrite_eq]
  have hpost' : ((post.map Prod.snd).reverse.findSome?
      (fun t => lookupTrans t lang (splitPath path))) = none := by
    refine findSome?_none_of_all _ _ ?_
    rw [List.all_reverse, all_map_snd]
    exact hpost
  simp [List.map_append, List.reverse_append, List.findSome?_append, hpost',
    List.findSome?_cons, hmatch]

/-- C5: under the `Ignore` policy the resolver loop breaks at the first
match, so among the loaded files defining the requested path and
language the one earliest in seek order wins: if no file before `t`
matches and `t` matches, the resolver returns the serialization of `t`'s
stored value, shadowing any later file. -/
theorem c5_ignore_earlier_file_wins (reg : List String) (lang path p : String) (t : Table)
    (v : Value) (pre post : List (String × Table))
    (hval : (pre ++ (p, t) :: post).all (fun ft => translations_valid reg ft.2) = true)
    (hlang : isValidLang reg lang = true)
    (hpre : pre.all (fun ft => (lookupTrans ft.2 lang (splitPath path)).isNone) = true)
    (hmatch : lookupTrans t lang (splitPath path) = some v) :
    load_translation_static reg .ignore (pre ++ (p, t) :: post) lang path
      = .ok (some v.tomlDisplay) := by
  rw [load_translation_static, load_translations_all_valid reg _ hval]
  rw [hlang]
  simp only [if_true]
  rw [rawChoose_ignore_eq]
  have hpre' : ((pre.map Prod.snd).findSome?
      (fun t => lookupTrans t lang (splitPath path))) = none := by
    refine findSome?_none_of_all _ _ ?_
    rw [all_map_snd]
    exact hpre
  simp [List.map_append, List.findSome?_append, hpre', List.findSome?_cons, hmatch]

/-- C7: under the `Ignore` policy, matching is per path and language, not
per file: when every earlier file misses the path entirely (the segment
walk fails), the loop continues past them, so a later file defining the
path for the requested language still resolves and its stored value's
serialization is returned. -/
theorem c7_ignore_absence_continues_search (reg : List String) (lang path p : String) (t : Table)
    (v : Value) (pre post : List (String × Table))
    (hval : (pre ++ (p, t) :: post).all (fun ft => translations_valid reg ft.2) = true)
    (hlang : isValidLang reg lang = true)
    (hpre : pre.all (fun ft => (walkTables ft.2 (splitPath path)).isNone) = true)
    (hmatch : lookupTrans t lang (splitPath path) = some v) :
    load_translation_static reg .ignore (pre ++ (p, t) :: post) lang path
      = .ok (some v.tomlDisplay) := by
  rw [load_translation_static, load_translations_all_valid reg _ hval]
  rw [hlang]
  simp only [if_true]
  rw [rawChoose_ignore_eq]
  have hpre' : ((pre.map Prod.snd).findSome?
      (fun t => lookupTrans t lang (splitPath path))) = none := by
    refine findSome?_none_of_all _ _ ?_
    rw [all_map_snd]
    refine (List.all_eq_true.2 ?_)
    intro ft hft
    have hw := List.all_eq_true.1 hpre ft hft
    simp only [Option.isNone_iff_eq_none] at hw ⊢
    simp [lookupTrans, hw]
  simp [List.map_append, List.findSome?_append, hpre', List.findSome?_cons, hmatch]

/-- Witness for C4: two files define `a.en`; `Overwrite` returns the
later file's value `two`. -/
theorem c4_witness :
    load_translation_static ["en"] .overwrite [("1.toml", tableOne), ("2.toml", tableTwo)] "en" "a"
      = .ok (some (Value.tomlDisplay (.str "two"))) :=
  c4_overwrite_later_file_wins ["en"] "en" "a" "2.toml" tableTwo (.str "two")
    [("1.toml", tableOne)] [] (by decide) (by decide) (by decide) (by decide)

/-- Witness for C5: two files define `a.en`; `Ignore` returns the earlier
file's value `one`, shadowing the later file. -/
theorem c5_witness :
    load_translation_static ["en"] .ignore [("1.toml", tableOne), ("2.toml", tableTwo)] "en" "a"
      = .ok (some (Value.tomlDisplay (.str "one"))) :=
  c5_ignore_earlier_file_wins ["en"] "en" "a" "1.toml" tableOne (.str "one")
    [] [("2.toml", tableTwo)] (by decide) (by decide) (by decide) (by decide)

/-- Witness for C7: the earlier file only defines path `b`, the later one
defines `a.en`; `Ignore` still resolves `a` through the later file. -/
theorem c7_witness :
    load_translation_static ["en"] .ignore [("0.toml", tableOther), ("1.toml", tableOne)] "en" "a"
      = .ok (some (Value.tomlDisplay (.str "one"))) :=
  c7_ignore_absence_continues_search ["en"] "en" "a" "1.toml" tableOne (.str "one")
    [("0.toml", tableOther)] [] (by decide) (by decide) (by decide) (by decide)
